import Mathlib

/-!
Verification of the hybrid-encryption web demo.

This file shallowly embeds the TypeScript sources of the repository
(`normalizePem` from the config module, the `POST /api/decrypt` route
handler) and, for the parts implemented in the Rust/WASM module whose
source is not part of the repository snapshot (the symmetric packet
codec and the session-key manager), models taken from the specification.
All embedded definitions are computable; theorems about the claims of
the specification follow the definitions.
-/

namespace WasmDemo

/-! ## Character-level utilities mirroring the JavaScript string methods -/

/-- ECMAScript white space (WhiteSpace ∪ LineTerminator), the character
class stripped by `String.prototype.trim`.  The common members are listed;
the proofs below only use that the class is checked per character. -/
def isJsWs (c : Char) : Bool :=
  c = ' ' || c = '\t' || c = '\n' || c = '\r' || c = '\x0b' || c = '\x0c' ||
  c = '\u00A0' || c = '\uFEFF' || c = '\u2028' || c = '\u2029'

/-- Left part of `String.prototype.trim`. -/
def trimLeft (l : List Char) : List Char := l.dropWhile isJsWs

/-- Right part of `String.prototype.trim`. -/
def trimRight (l : List Char) : List Char := (l.reverse.dropWhile isJsWs).reverse

/-- Model of `String.prototype.trim`: strip white space from both ends. -/
def trimChars (l : List Char) : List Char := trimRight (trimLeft l)

/-- The test "wrapping quotes are present":
`(s.startsWith('"') && s.endsWith('"')) || (s.startsWith("'") && s.endsWith("'"))`. -/
def quoteWrapped (l : List Char) : Bool :=
  (l.head? = some '"' && l.getLast? = some '"') ||
  (l.head? = some '\'' && l.getLast? = some '\'')

/-- Model of `s = s.slice(1, -1)` applied under the quote test (source lines 57-59). -/
def stripQuotes (l : List Char) : List Char :=
  if quoteWrapped l then (l.drop 1).dropLast else l

/-- Model of `s.replace(/\\n/g, "\n")`: a global regular-expression replacement scans
left to right and replaces non-overlapping occurrences of the two-character
sequence backslash-`n` by a line feed. -/
def replLitNL : List Char → List Char
  | [] => []
  | [c] => [c]
  | a :: b :: r =>
    if a = '\\' && b = 'n' then '\n' :: replLitNL r
    else a :: replLitNL (b :: r)

/-- Model of `s.replace(/\r\n/g, "\n")`. -/
def replCRLF : List Char → List Char
  | [] => []
  | [c] => [c]
  | a :: b :: r =>
    if a = '\r' && b = '\n' then '\n' :: replCRLF r
    else a :: replCRLF (b :: r)

/-- Model of `s.replace(/\r/g, "\n")`: a single-character global replacement is a map. -/
def replCR (l : List Char) : List Char :=
  l.map (fun c => if c = '\r' then '\n' else c)

/-- No two adjacent characters form the sequence backslash-`n`: the
invariant under which `replLitNL` is the identity. -/
def noLN : List Char → Bool
  | [] => true
  | [_] => true
  | a :: b :: r => !(a = '\\' && b = 'n') && noLN (b :: r)

/-! ## The PEM boundary-line tests

The source tests each (already trimmed) line against the anchored regular
expressions `/^-----BEGIN [A-Z0-9 ]+-----$/` and `/^-----END [A-Z0-9 ]+-----$/`.
Because the character class `[A-Z0-9 ]` does not contain `-`, a line matches
exactly when it is the literal marker, a nonempty label drawn from the class,
and five closing dashes. -/

/-- The class `[A-Z0-9 ]`. -/
def isLabelChar (c : Char) : Bool :=
  ('A' ≤ c && c ≤ 'Z') || ('0' ≤ c && c ≤ '9') || c = ' '

def beginMarker : List Char := "-----BEGIN ".data

def endMarker : List Char := "-----END ".data

def dashes5 : List Char := "-----".data

/-- A line matches `^<marker><label>-----$` with a nonempty `[A-Z0-9 ]` label. -/
def matchesTag (marker l : List Char) : Bool :=
  decide (l.take marker.length = marker) &&
  (let rest := l.drop marker.length
   decide (6 ≤ rest.length) &&
   decide (rest.drop (rest.length - 5) = dashes5) &&
   (rest.take (rest.length - 5)).all isLabelChar)

/-- Test `/^-----BEGIN [A-Z0-9 ]+-----$/.test l`. -/
def isBeginLine (l : List Char) : Bool := matchesTag beginMarker l

/-- Test `/^-----END [A-Z0-9 ]+-----$/.test l`. -/
def isEndLine (l : List Char) : Bool := matchesTag endMarker l

/-- Model of `rawLines.findIndex((l, i) => i >= k && p(l))`: the first index `i ≥ k`
whose element satisfies `p`, i.e. `k` plus the first hit in `ls.drop k`. -/
def findIdxFrom (p : List Char → Bool) (k : Nat) (ls : List (List Char)) : Option Nat :=
  ((ls.drop k).findIdx? p).map (· + k)

/-! ## `normalizePem` (config module, source lines 52-82) -/

/-- Source lines 62-67: unescape literal `\n`, normalize CRLF/CR, split into
lines and trim each line.  Applied to the trimmed, quote-stripped input. -/
def pemLines (s : List Char) : List (List Char) :=
  ((replCR (replCRLF (replLitNL s))).splitOn '\n').map trimChars

/-- Predicate `l.length > 0` of `rawLines.filter` (source line 74). -/
def keepLine (l : List Char) : Bool := decide (0 < l.length)

/-- Source lines 70-77: keep the inclusive `BEGIN`..`END` slice when the two
boundary lines are found (the `END` search starting at `beginIdx + 1`),
otherwise keep the non-empty lines.  `slice(b, e + 1)` is `drop b` then
`take (e + 1 - b)`. -/
def selectLines (raw : List (List Char)) : List (List Char) :=
  let beginIdx := raw.findIdx? isBeginLine
  let endIdxFrom := match beginIdx with | some b => b + 1 | none => 0
  let endIdx := findIdxFrom isEndLine endIdxFrom raw
  match beginIdx, endIdx with
  | some b, some e =>
    if b < e then (raw.drop b).take (e + 1 - b)
    else raw.filter keepLine
  | _, _ => raw.filter keepLine

/-- Model of `lines.join("\n")`. -/
def joinLF (ls : List (List Char)) : List Char := List.intercalate ['\n'] ls

/-- Model of `out.endsWith("\n") ? out : out + "\n"`. -/
def ensureTrailingLF (out : List Char) : List Char :=
  if out.getLast? = some '\n' then out else out ++ ['\n']

/-- The body of `normalizePem` on the character list of the input string. -/
def normChars (x : List Char) : List Char :=
  let s := trimChars x
  if s = [] then []
  else ensureTrailingLF (joinLF (selectLines (pemLines (stripQuotes s))))

/-- Model of `normalizePem(input: string | undefined | null): string`; `none` stands
for `undefined`/`null`, so `input.getD ""` is `input ?? ""`. -/
def normalizePem (input : Option String) : String :=
  ⟨normChars (input.getD "").data⟩

/-- The `rawLines` array the source computes for an input string: trimmed
lines of the unescaped, line-ending-normalized, quote-stripped, trimmed
input. -/
def rawLinesOf (x : String) : List (List Char) :=
  pemLines (stripQuotes (trimChars x.data))

/-! ## The `POST /api/decrypt` route handler

The handler is embedded as a pure function.  JavaScript values produced by
`JSON.parse` and consumed by `JSON.stringify` are modelled by a JSON syntax
tree whose object fields are kept in insertion order (the order JavaScript
object literals and `JSON.stringify` preserve).  The dynamic import of the
WASM module is modelled by a structure of the two exported functions the
handler calls; a call that throws is an `Except.error` carrying the message
string the handler extracts.  The handler also records the list of WASM
calls it performs, so that "is never invoked" and "no retry" are provable
statements about the returned trace. -/

inductive Json where
  | null : Json
  | bool : Bool → Json
  | num : Int → Json
  | str : String → Json
  | arr : List Json → Json
  | obj : List (String × Json) → Json

/-- Access `body?.k` for our JSON values: field lookup on objects, `undefined`
(modelled as `none`) on everything else. -/
def jsGet (j : Json) (k : String) : Option Json :=
  match j with
  | .obj fields => (fields.find? (fun kv => kv.1 == k)).map (·.2)
  | _ => none

/-- Check `typeof v === "string"` refined to the string payload: `some s` exactly
when the (possibly absent) value is a string. -/
def asString : Option Json → Option String
  | some (.str s) => some s
  | _ => none

/-- The two exports of the dynamically imported WASM module that the route
calls.  A throwing call is `Except.error` with the thrown message. -/
structure WasmModule where
  server_decrypt_with_wrapped : String → String → Except String String
  server_encrypt_with_wrapped : String → String → Except String String

/-- Ambient JavaScript runtime facilities used by the handler:
`JSON.parse` under `try`/`catch` (`none` on a parse error), `JSON.stringify`,
and the successive readings of `Date.now()` (call number ↦ clock value). -/
structure JsRuntime where
  parseJson : String → Option Json
  stringifyJson : Json → String
  now : Nat → Int

/-- Ghost trace entry: one performed WASM call with its arguments. -/
inductive WasmCall where
  | dec : String → String → WasmCall
  | enc : String → String → WasmCall

structure HttpResponse where
  status : Nat
  body : Json

/-- Model of `clientObj ?? incomingPlaintext` (source line 56): nullish coalescing,
taking the fallback when `JSON.parse` threw or returned `null`. -/
def echoValue (clientObj : Option Json) (incomingPlaintext : String) : Json :=
  match clientObj with
  | some Json.null => Json.str incomingPlaintext
  | some j => j
  | none => Json.str incomingPlaintext

/-- The response object built on source lines 55-59. -/
def responseObj (rt : JsRuntime) (incomingPlaintext : String) : Json :=
  Json.obj [
    ("echo", echoValue (rt.parseJson incomingPlaintext) incomingPlaintext),
    ("serverTime", Json.num (rt.now 2)),
    ("msg", Json.str "server encrypted response")]

/-- Handler `POST /api/decrypt` (route module, source lines 18-83).  The first
argument is the result of `await req.json()` (`Except.error` when the body
is not valid JSON, which the surrounding `try` turns into a 500).  Returns
the response together with the trace of WASM calls performed. -/
def POST (rt : JsRuntime) (mod : WasmModule) (bodyResult : Except String Json) :
    HttpResponse × List WasmCall :=
  match bodyResult with
  | .error e => (⟨500, .obj [("ok", .bool false), ("error", .str e)]⟩, [])
  | .ok body =>
    match asString (jsGet body "wrapped_key_b64"), asString (jsGet body "payload") with
    | some wrappedKeyB64, some payload =>
      match mod.server_decrypt_with_wrapped wrappedKeyB64 payload with
      | .error e =>
        (⟨500, .obj [("ok", .bool false), ("error", .str e)]⟩,
         [.dec wrappedKeyB64 payload])
      | .ok incomingPlaintext =>
        let server_decrypt_ms := rt.now 1 - rt.now 0
        let responseJson := rt.stringifyJson (responseObj rt incomingPlaintext)
        match mod.server_encrypt_with_wrapped wrappedKeyB64 responseJson with
        | .error e =>
          (⟨500, .obj [("ok", .bool false), ("error", .str e)]⟩,
           [.dec wrappedKeyB64 payload, .enc wrappedKeyB64 responseJson])
        | .ok outPacket =>
          let server_encrypt_ms := rt.now 4 - rt.now 3
          (⟨200, .obj [
              ("ok", .bool true),
              ("payload", .str outPacket),
              ("timings", .obj [
                ("server_decrypt_ms", .num server_decrypt_ms),
                ("server_encrypt_ms", .num server_encrypt_ms)]),
              ("debug", .obj [
                ("server_decrypted_plaintext", .str incomingPlaintext),
                ("server_response_plaintext", .str responseJson)])]⟩,
           [.dec wrappedKeyB64 payload, .enc wrappedKeyB64 responseJson])
    | _, _ =>
      (⟨400, .obj [("ok", .bool false), ("error", .str "缺少 wrapped_key_b64 或 payload")]⟩, [])

/-- A runtime and module usable for concrete evaluations. -/
def rtDemo : JsRuntime :=
  { parseJson := fun _ => none
    stringifyJson := fun _ => "SERIALIZED"
    now := fun _ => 0 }

def modDemoOk : WasmModule :=
  { server_decrypt_with_wrapped := fun _ _ => .ok "PLAINTEXT"
    server_encrypt_with_wrapped := fun _ _ => .ok "PACKET" }

def bodyDemo : Json :=
  Json.obj [("wrapped_key_b64", Json.str "W"), ("payload", Json.str "P")]

/-! ## base64url without padding

The wire format mandates "base64url-encoded without padding" binary fields
(spec §3/§6).  Bytes are natural numbers below 256. -/

/-- The base64url alphabet: `A-Z`, `a-z`, `0-9`, `-`, `_`. -/
def b64Char (i : Nat) : Char :=
  if i < 26 then Char.ofNat ('A'.toNat + i)
  else if i < 52 then Char.ofNat ('a'.toNat + (i - 26))
  else if i < 62 then Char.ofNat ('0'.toNat + (i - 52))
  else if i = 62 then '-'
  else '_'

/-- Inverse of `b64Char` on the alphabet. -/
def b64Val (c : Char) : Nat :=
  if 'A' ≤ c ∧ c ≤ 'Z' then c.toNat - 'A'.toNat
  else if 'a' ≤ c ∧ c ≤ 'z' then c.toNat - 'a'.toNat + 26
  else if '0' ≤ c ∧ c ≤ '9' then c.toNat - '0'.toNat + 52
  else if c = '-' then 62
  else 63

/-- base64url encoding without padding: three bytes become four sextet
characters, a final one or two bytes become two or three characters. -/
def b64urlEncode : List Nat → List Char
  | [] => []
  | [a] => [b64Char (a / 4), b64Char (a % 4 * 16)]
  | [a, b] => [b64Char (a / 4), b64Char (a % 4 * 16 + b / 16), b64Char (b % 16 * 4)]
  | a :: b :: c :: r =>
    b64Char (a / 4) :: b64Char (a % 4 * 16 + b / 16) :: b64Char (b % 16 * 4 + c / 64) ::
      b64Char (c % 64) :: b64urlEncode r

/-- base64url decoding without padding (inverse chunking). -/
def b64urlDecode : List Char → List Nat
  | [] => []
  | [_] => []
  | [c0, c1] => [b64Val c0 * 4 + b64Val c1 / 16]
  | [c0, c1, c2] =>
    [b64Val c0 * 4 + b64Val c1 / 16, b64Val c1 % 16 * 16 + b64Val c2 / 4]
  | c0 :: c1 :: c2 :: c3 :: r =>
    (b64Val c0 * 4 + b64Val c1 / 16) ::
      (b64Val c1 % 16 * 16 + b64Val c2 / 4) ::
      (b64Val c2 % 4 * 64 + b64Val c3) ::
      b64urlDecode r

/-! ## Symmetric Packet Codec

Modelled from the spec: the Rust/WASM sources implementing the codec are
not part of the repository snapshot (only their exported signatures and the
README describe them).  Spec §4.3: `encrypt(plaintext, key)` draws a fresh
96-bit nonce, applies the AEAD (AES-256-GCM), and produces
`{v:1, sym_alg:"AES-256-GCM", nonce_b64, ciphertext_b64}` with both binary
fields base64url without padding; `decrypt(packet, key)` checks the version
and algorithm tag, decodes the fields, and opens the AEAD.  The AES-GCM
primitive itself is out of scope of the spec ("assumed available as a
trusted crypto library"), so it is a parameter with the defining AEAD
inversion property; plaintexts are byte lists (the spec's UTF-8 encoding of
the plaintext string). -/

structure AEAD where
  -- encryption: key, nonce, plaintext bytes to ciphertext-with-tag bytes
  aeadSeal : List Nat → List Nat → List Nat → List Nat
  -- authenticated decryption; none is the TamperError outcome
  aeadOpen : List Nat → List Nat → List Nat → Option (List Nat)
  -- the defining AEAD round trip, guaranteed by the trusted library
  aeadOpen_aeadSeal : ∀ k n m, aeadOpen k n (aeadSeal k n m) = some m

structure SymmetricPacket where
  v : Nat
  sym_alg : String
  nonce_b64 : List Char
  ciphertext_b64 : List Char

/-- Modelled from the spec: `encrypt(plaintext: string, key: 32 bytes) ->
SymmetricPacket` (spec §4.3), with the fresh random nonce passed explicitly
(randomness is external to the model). -/
def encrypt (A : AEAD) (plaintext : List Nat) (key : List Nat) (nonce : List Nat) :
    SymmetricPacket :=
  { v := 1
    sym_alg := "AES-256-GCM"
    nonce_b64 := b64urlEncode nonce
    ciphertext_b64 := b64urlEncode (A.aeadSeal key nonce plaintext) }

/-- Modelled from the spec: `decrypt(packet: SymmetricPacket, key: 32 bytes)
-> string` (spec §4.3); `none` covers both `UnsupportedVersionError` (bad
`v`/`sym_alg`) and `TamperError` (AEAD rejection). -/
def decrypt (A : AEAD) (packet : SymmetricPacket) (key : List Nat) : Option (List Nat) :=
  if packet.v = 1 ∧ packet.sym_alg = "AES-256-GCM" then
    A.aeadOpen key (b64urlDecode packet.nonce_b64) (b64urlDecode packet.ciphertext_b64)
  else none

/-! ## Session Key Manager

Modelled from the spec: the Rust/WASM `ensure_session_key` source is not in
the repository snapshot.  Spec §4.4: the cache holds an optional `Session`;
a cached session is valid iff it is for the same public key and
`now < expiresAt`; a valid session is returned with `fresh:false` and no
new key material; otherwise a fresh 32-byte key (passed explicitly, as
randomness is external) is wrapped with the supplied public key and cached
with `expiresAt = now + 15 minutes`, returning `fresh:true`. -/

structure Session where
  publicKeyFingerprint : String
  rawKeyBytes : List Nat
  wrappedKeyB64 : String
  createdAt : Nat
  expiresAt : Nat

structure WrappedKeyEnvelope where
  v : Nat
  alg : String
  sym_alg : String
  wrapped_key_b64 : String
  fresh : Bool
  created_ms : Nat

/-- 15 minutes in milliseconds. -/
def sessionTtlMs : Nat := 15 * 60 * 1000

/-- Modelled from the spec: `ensureSession(publicKeyPem) -> WrappedKeyEnvelope`
(spec §4.4), over an explicit cache slot, clock reading, fresh key bytes and
the external RSA-OAEP wrap function. -/
def ensureSession (wrap : String → List Nat → String) (pub : String)
    (now : Nat) (freshKey : List Nat) (cache : Option Session) :
    WrappedKeyEnvelope × Option Session :=
  match cache with
  | some s =>
    if s.publicKeyFingerprint = pub ∧ now < s.expiresAt then
      ({ v := 1, alg := "RSA-OAEP-256", sym_alg := "AES-256-GCM",
         wrapped_key_b64 := s.wrappedKeyB64, fresh := false, created_ms := s.createdAt },
       some s)
    else
      let w := wrap pub freshKey
      ({ v := 1, alg := "RSA-OAEP-256", sym_alg := "AES-256-GCM",
         wrapped_key_b64 := w, fresh := true, created_ms := now },
       some { publicKeyFingerprint := pub, rawKeyBytes := freshKey, wrappedKeyB64 := w,
              createdAt := now, expiresAt := now + sessionTtlMs })
  | none =>
    let w := wrap pub freshKey
    ({ v := 1, alg := "RSA-OAEP-256", sym_alg := "AES-256-GCM",
       wrapped_key_b64 := w, fresh := true, created_ms := now },
     some { publicKeyFingerprint := pub, rawKeyBytes := freshKey, wrappedKeyB64 := w,
            createdAt := now, expiresAt := now + sessionTtlMs })

/-! An injective encoding of key bytes with a computable left inverse, used
to instantiate the external wrap function in concrete evaluations (the spec
guarantees `unwrap(wrap(K, pub), priv) = K`, so the wrap of the witnesses
must likewise be left invertible). -/

/-- Unary encoding: each byte `n` becomes `n` copies of `x` and a `y`. -/
def unaryEnc (k : List Nat) : List Char :=
  (k.map fun n => List.replicate n 'x' ++ ['y']).flatten

/-- Left inverse of `unaryEnc`: count `x` runs between `y` separators. -/
def unaryDecAux : List Char → Nat → List Nat
  | [], _ => []
  | 'y' :: r, acc => acc :: unaryDecAux r 0
  | _ :: r, acc => unaryDecAux r (acc + 1)

def unaryDec (l : List Char) : List Nat := unaryDecAux l 0

/-! Concrete instances used for evaluating the models on sample inputs. -/

def modDemoFail : WasmModule :=
  { server_decrypt_with_wrapped := fun _ _ => .error "unwrap failed"
    server_encrypt_with_wrapped := fun _ _ => .ok "PACKET" }

def bodyDemoNoKey : Json := Json.obj [("payload", Json.str "P")]

/-- A trivial but lawful instance of the external AEAD interface. -/
def aeadDemo : AEAD :=
  { aeadSeal := fun _ _ m => m
    aeadOpen := fun _ _ c => some c
    aeadOpen_aeadSeal := fun _ _ _ => rfl }

def keyDemo : List Nat := List.replicate 32 7

def nonceDemo : List Nat := List.replicate 12 1

/-- A left-invertible stand-in for the external RSA-OAEP wrap. -/
def wrapDemo : String → List Nat → String := fun _ k => ⟨unaryEnc k⟩

def unwrapDemo : String → List Nat := fun s => unaryDec s.data

/-! ## Lemmas about trimming -/

theorem trimRight_def (l : List Char) : trimRight l = (trimLeft l.reverse).reverse := rfl

theorem trimLeft_head_not_ws {l : List Char} {h : Char}
    (hh : (trimLeft l).head? = some h) : isJsWs h = false := by
  induction l with
  | nil => simp [trimLeft] at hh
  | cons c r ih =>
    rw [trimLeft, List.dropWhile_cons] at hh
    by_cases hc : isJsWs c = true
    · rw [if_pos hc] at hh; exact ih hh
    · rw [if_neg hc] at hh
      simp only [List.head?_cons, Option.some.injEq] at hh
      subst hh
      simpa using hc

theorem trimLeft_eq_self {l : List Char}
    (h : ∀ c, l.head? = some c → isJsWs c = false) : trimLeft l = l := by
  cases l with
  | nil => rfl
  | cons c r =>
    rw [trimLeft, List.dropWhile_cons, if_neg]
    simp [h c rfl]

theorem trimLeft_append_eq (l : List Char) :
    l.takeWhile isJsWs ++ trimLeft l = l := by
  rw [trimLeft]
  exact List.takeWhile_append_dropWhile ..

theorem trimRight_append_eq (l : List Char) :
    trimRight l ++ (l.reverse.takeWhile isJsWs).reverse = l := by
  rw [trimRight_def, trimLeft, ← List.reverse_append, List.takeWhile_append_dropWhile,
    List.reverse_reverse]

theorem trimRight_getLast_not_ws {l : List Char} {g : Char}
    (hg : (trimRight l).getLast? = some g) : isJsWs g = false := by
  rw [trimRight_def, List.getLast?_reverse] at hg
  exact trimLeft_head_not_ws (l := l.reverse) hg

theorem trimRight_eq_self {l : List Char}
    (h : ∀ c, l.getLast? = some c → isJsWs c = false) : trimRight l = l := by
  rw [trimRight_def, trimLeft_eq_self, List.reverse_reverse]
  intro c hc
  rw [List.head?_reverse] at hc
  exact h c hc

theorem head?_of_trimRight {l : List Char} {c : Char}
    (h : (trimRight l).head? = some c) : l.head? = some c := by
  conv_lhs => rw [← trimRight_append_eq l]
  rw [List.head?_append, h]
  rfl

theorem trimmed_head_not_ws {l : List Char} {c : Char}
    (ht : trimChars l = l) (hc : l.head? = some c) : isJsWs c = false := by
  rw [← ht, trimChars] at hc
  exact trimLeft_head_not_ws (head?_of_trimRight hc)

theorem trimmed_getLast_not_ws {l : List Char} {c : Char}
    (ht : trimChars l = l) (hc : l.getLast? = some c) : isJsWs c = false := by
  rw [← ht, trimChars] at hc
  exact trimRight_getLast_not_ws hc

theorem trimRight_idem (l : List Char) : trimRight (trimRight l) = trimRight l :=
  trimRight_eq_self (fun _ hc => trimRight_getLast_not_ws hc)

theorem trimChars_idem (l : List Char) : trimChars (trimChars l) = trimChars l := by
  rw [trimChars, trimChars,
    trimLeft_eq_self (fun _ hc => trimLeft_head_not_ws (head?_of_trimRight hc)),
    trimRight_idem]

theorem trimChars_append_lf {l : List Char} (hne : l ≠ [])
    (hh : ∀ c, l.head? = some c → isJsWs c = false)
    (hg : ∀ c, l.getLast? = some c → isJsWs c = false) :
    trimChars (l ++ ['\n']) = l := by
  have h1 : trimLeft (l ++ ['\n']) = l ++ ['\n'] := by
    apply trimLeft_eq_self
    intro c hc
    rw [List.head?_append] at hc
    cases hl : l.head? with
    | none => exact absurd (List.head?_eq_none_iff.mp hl) hne
    | some d =>
      rw [hl] at hc
      have hdc : d = c := by simpa [Option.or] using hc
      exact hdc ▸ hh d hl
  rw [trimChars, h1, trimRight_def, List.reverse_append, trimLeft]
  have h2 : List.dropWhile isJsWs (['\n'].reverse ++ l.reverse)
      = List.dropWhile isJsWs l.reverse := by
    simp [List.dropWhile_cons, isJsWs]
  rw [h2]
  have h3 : List.dropWhile isJsWs l.reverse = l.reverse := by
    rw [← trimLeft]
    apply trimLeft_eq_self
    intro c hc
    rw [List.head?_reverse] at hc
    exact hg c hc
  rw [h3, List.reverse_reverse]

/-! ## Lemmas about the pair-freeness invariant `noLN` -/

theorem noLN_cons_cons {a b : Char} {r : List Char} :
    noLN (a :: b :: r) = (!(a = '\\' && b = 'n') && noLN (b :: r)) := rfl

theorem noLN_tail {x : Char} {m : List Char} (h : noLN (x :: m) = true) :
    noLN m = true := by
  cases m with
  | nil => rfl
  | cons b r => exact (Bool.and_eq_true_iff.mp (noLN_cons_cons ▸ h)).2

theorem noLN_pair {a b : Char} {r : List Char} (h : noLN (a :: b :: r) = true) :
    ¬(a = '\\' ∧ b = 'n') := by
  have h1 := (Bool.and_eq_true_iff.mp (noLN_cons_cons ▸ h)).1
  exact not_and_or.mpr (by simpa using h1)

theorem noLN_cons_intro {x : Char} {m : List Char} (hm : noLN m = true)
    (hx : ∀ hd, m.head? = some hd → ¬(x = '\\' ∧ hd = 'n')) :
    noLN (x :: m) = true := by
  cases m with
  | nil => rfl
  | cons b r =>
    rw [noLN_cons_cons, Bool.and_eq_true]
    exact ⟨by simpa using not_and_or.mp (hx b rfl), hm⟩

theorem noLN_append_right {x y : List Char} (h : noLN (x ++ y) = true) :
    noLN y = true := by
  induction x with
  | nil => exact h
  | cons c r ih => exact ih (noLN_tail h)

theorem noLN_append_left {x y : List Char} (h : noLN (x ++ y) = true) :
    noLN x = true := by
  induction x with
  | nil => rfl
  | cons c r ih =>
    have hr : noLN r = true := ih (noLN_tail h)
    apply noLN_cons_intro hr
    intro hd hhd hpair
    cases r with
    | nil => simp at hhd
    | cons b r' =>
      simp only [List.head?_cons, Option.some.injEq] at hhd
      subst hhd
      exact noLN_pair (r := r' ++ y) (by simpa using h) hpair

theorem noLN_append_intro {x y : List Char} (hx : noLN x = true) (hy : noLN y = true)
    (hb : ∀ a b, x.getLast? = some a → y.head? = some b → ¬(a = '\\' ∧ b = 'n')) :
    noLN (x ++ y) = true := by
  induction x with
  | nil => exact hy
  | cons c r ih =>
    by_cases hr : r = []
    · subst hr
      rw [List.nil_append] at *
      apply noLN_cons_intro hy
      intro hd hhd
      exact hb c hd rfl hhd
    · have h1 : noLN (r ++ y) = true := by
        apply ih (noLN_tail hx)
        intro a b ha hbh
        apply hb a b _ hbh
        cases r with
        | nil => exact absurd rfl hr
        | cons d r' => rwa [List.getLast?_cons_cons]
      rw [List.cons_append]
      apply noLN_cons_intro h1
      intro hd hhd hpair
      cases r with
      | nil => exact hr rfl
      | cons b r' =>
        rw [List.cons_append, List.head?_cons, Option.some.injEq] at hhd
        subst hhd
        exact noLN_pair (r := r') hx hpair

theorem noLN_take {l : List Char} (n : Nat) (h : noLN l = true) :
    noLN (l.take n) = true :=
  noLN_append_left (x := l.take n) (y := l.drop n)
    (by rw [List.take_append_drop]; exact h)

theorem noLN_drop {l : List Char} (n : Nat) (h : noLN l = true) :
    noLN (l.drop n) = true :=
  noLN_append_right (x := l.take n) (y := l.drop n)
    (by rw [List.take_append_drop]; exact h)

theorem noLN_trimLeft {l : List Char} (h : noLN l = true) :
    noLN (trimLeft l) = true :=
  noLN_append_right (x := l.takeWhile isJsWs)
    (by rw [trimLeft_append_eq]; exact h)

theorem noLN_trimRight {l : List Char} (h : noLN l = true) :
    noLN (trimRight l) = true :=
  noLN_append_left (y := (l.reverse.takeWhile isJsWs).reverse)
    (by rw [trimRight_append_eq]; exact h)

theorem noLN_trimChars {l : List Char} (h : noLN l = true) :
    noLN (trimChars l) = true :=
  noLN_trimRight (noLN_trimLeft h)

theorem mem_of_mem_trimLeft {l : List Char} {c : Char} (h : c ∈ trimLeft l) :
    c ∈ l :=
  (trimLeft_append_eq l) ▸ List.mem_append.mpr (Or.inr h)

theorem mem_of_mem_trimRight {l : List Char} {c : Char} (h : c ∈ trimRight l) :
    c ∈ l :=
  (trimRight_append_eq l) ▸ List.mem_append.mpr (Or.inl h)

theorem mem_of_mem_trimChars {l : List Char} {c : Char} (h : c ∈ trimChars l) :
    c ∈ l :=
  mem_of_mem_trimLeft (mem_of_mem_trimRight h)

/-! ## Lemmas about the global replacements -/

theorem replLitNL_two {a b : Char} {r : List Char} :
    replLitNL (a :: b :: r) =
      if a = '\\' && b = 'n' then '\n' :: replLitNL r
      else a :: replLitNL (b :: r) := rfl

theorem replLitNL_head : ∀ l : List Char,
    (replLitNL l).head? = l.head? ∨ (replLitNL l).head? = some '\n'
  | [] => Or.inl rfl
  | [_] => Or.inl rfl
  | a :: b :: r => by
    by_cases h : (a = '\\' && b = 'n') = true
    · rw [replLitNL_two, if_pos h]; exact Or.inr rfl
    · rw [replLitNL_two, if_neg h]; exact Or.inl rfl

theorem noLN_replLitNL : ∀ l : List Char, noLN (replLitNL l) = true
  | [] => rfl
  | [_] => rfl
  | a :: b :: r => by
    by_cases h : (a = '\\' && b = 'n') = true
    · rw [replLitNL_two, if_pos h]
      apply noLN_cons_intro (noLN_replLitNL r)
      intro hd _ hpair
      exact absurd hpair.1 (by decide)
    · rw [replLitNL_two, if_neg h]
      apply noLN_cons_intro (noLN_replLitNL (b :: r))
      intro hd hhd hpair
      rcases replLitNL_head (b :: r) with h1 | h1
      · rw [hhd, List.head?_cons] at h1
        have hb : hd = b := by simpa using h1
        subst hb
        exact h (by simp [hpair.1, hpair.2])
      · rw [hhd] at h1
        have hb : hd = '\n' := by simpa using h1
        subst hb
        exact absurd hpair.2 (by decide)

theorem replLitNL_of_noLN : ∀ {l : List Char}, noLN l = true → replLitNL l = l
  | [], _ => rfl
  | [_], _ => rfl
  | a :: b :: r, h => by
    rw [replLitNL_two, if_neg (by simpa using noLN_pair h),
      replLitNL_of_noLN (noLN_tail h)]

theorem replCRLF_two {a b : Char} {r : List Char} :
    replCRLF (a :: b :: r) =
      if a = '\r' && b = '\n' then '\n' :: replCRLF r
      else a :: replCRLF (b :: r) := rfl

theorem replCRLF_head : ∀ l : List Char,
    (replCRLF l).head? = l.head? ∨ (replCRLF l).head? = some '\n'
  | [] => Or.inl rfl
  | [_] => Or.inl rfl
  | a :: b :: r => by
    by_cases h : (a = '\r' && b = '\n') = true
    · rw [replCRLF_two, if_pos h]; exact Or.inr rfl
    · rw [replCRLF_two, if_neg h]; exact Or.inl rfl

theorem noLN_replCRLF : ∀ {l : List Char}, noLN l = true → noLN (replCRLF l) = true
  | [], _ => rfl
  | [_], _ => rfl
  | a :: b :: r, h => by
    by_cases hc : (a = '\r' && b = '\n') = true
    · rw [replCRLF_two, if_pos hc]
      apply noLN_cons_intro (noLN_replCRLF (noLN_tail (noLN_tail h)))
      intro hd _ hpair
      exact absurd hpair.1 (by decide)
    · rw [replCRLF_two, if_neg hc]
      apply noLN_cons_intro (noLN_replCRLF (noLN_tail h))
      intro hd hhd hpair
      rcases replCRLF_head (b :: r) with h1 | h1
      · rw [hhd, List.head?_cons] at h1
        have hb : hd = b := by simpa using h1
        subst hb
        exact noLN_pair h hpair
      · rw [hhd] at h1
        have hb : hd = '\n' := by simpa using h1
        subst hb
        exact absurd hpair.2 (by decide)

theorem replCRLF_of_noCR : ∀ {l : List Char}, '\r' ∉ l → replCRLF l = l
  | [], _ => rfl
  | [_], _ => rfl
  | a :: b :: r, h => by
    have ha : ¬(a = '\r') := fun e => h (e ▸ List.mem_cons_self ..)
    rw [replCRLF_two, if_neg (by simp [ha]),
      replCRLF_of_noCR (fun m => h (List.mem_cons_of_mem _ m))]

theorem replCR_cons {c : Char} {l : List Char} :
    replCR (c :: l) = (if c = '\r' then '\n' else c) :: replCR l := rfl

theorem not_cr_mem_replCR {l : List Char} : '\r' ∉ replCR l := by
  intro h
  rw [replCR, List.mem_map] at h
  rcases h with ⟨c, _, hc⟩
  by_cases h1 : c = '\r'
  · rw [if_pos h1] at hc; exact absurd hc (by decide)
  · rw [if_neg h1] at hc; exact h1 hc

theorem noLN_replCR : ∀ {l : List Char}, noLN l = true → noLN (replCR l) = true
  | [], _ => rfl
  | [_], _ => rfl
  | a :: b :: r, h => by
    rw [replCR_cons]
    apply noLN_cons_intro (noLN_replCR (noLN_tail h))
    intro hd hhd hpair
    rw [replCR_cons, List.head?_cons, Option.some.injEq] at hhd
    obtain ⟨hp1, hp2⟩ := hpair
    by_cases h1 : a = '\r'
    · rw [if_pos h1] at hp1; exact absurd hp1 (by decide)
    · rw [if_neg h1] at hp1
      by_cases h2 : b = '\r'
      · rw [if_pos h2] at hhd; subst hhd; exact absurd hp2 (by decide)
      · rw [if_neg h2] at hhd; subst hhd
        exact noLN_pair h ⟨hp1, hp2⟩

theorem replCR_of_noCR {l : List Char} (h : '\r' ∉ l) : replCR l = l := by
  induction l with
  | nil => rfl
  | cons c r ih =>
    have hc : ¬(c = '\r') := fun e => h (e ▸ List.mem_cons_self ..)
    rw [replCR_cons, if_neg hc, ih (fun m => h (List.mem_cons_of_mem _ m))]

/-! ## Lemmas about the parts produced by splitting on line feeds -/

theorem splitOnP_head_rel (p : Char → Bool) :
    ∀ (r : List Char) (h : List Char) (t : List (List Char)),
      r.splitOnP p = h :: t → ∀ hd, h.head? = some hd → r.head? = some hd := by
  intro r h t hsplit hd hhd
  cases r with
  | nil =>
    rw [List.splitOnP_nil] at hsplit
    injection hsplit with h1 h2
    subst h1
    simp at hhd
  | cons c r' =>
    rw [List.splitOnP_cons] at hsplit
    by_cases hc : p c = true
    · rw [if_pos hc] at hsplit
      injection hsplit with h1 h2
      subst h1
      simp at hhd
    · rw [if_neg hc] at hsplit
      obtain ⟨h', t', heq⟩ := List.exists_cons_of_ne_nil (List.splitOnP_ne_nil p r')
      rw [heq, List.modifyHead_cons] at hsplit
      have h1 : (c :: h') = h := ((List.cons.injEq ..).mp hsplit).1
      rw [← h1, List.head?_cons, Option.some.injEq] at hhd
      rw [List.head?_cons, hhd]

theorem splitOnP_sub (p : Char → Bool) :
    ∀ (s : List Char), ∀ part ∈ s.splitOnP p, ∀ c ∈ part, c ∈ s := by
  intro s
  induction s with
  | nil =>
    intro part hp c hc
    rw [List.splitOnP_nil, List.mem_singleton] at hp
    subst hp
    simp at hc
  | cons x xs ih =>
    intro part hp c hc
    rw [List.splitOnP_cons] at hp
    by_cases hx : p x = true
    · rw [if_pos hx] at hp
      rcases List.mem_cons.mp hp with rfl | hp'
      · simp at hc
      · exact List.mem_cons_of_mem _ (ih part hp' c hc)
    · rw [if_neg hx] at hp
      obtain ⟨h', t', heq⟩ := List.exists_cons_of_ne_nil (List.splitOnP_ne_nil p xs)
      rw [heq, List.modifyHead_cons] at hp
      rcases List.mem_cons.mp hp with rfl | hp'
      · rcases List.mem_cons.mp hc with rfl | hc'
        · exact List.mem_cons_self ..
        · exact List.mem_cons_of_mem _ (ih h' (heq ▸ List.mem_cons_self ..) c hc')
      · exact List.mem_cons_of_mem _ (ih part (heq ▸ List.mem_cons_of_mem _ hp') c hc)

theorem splitOnP_no_sep (p : Char → Bool) :
    ∀ (s : List Char), ∀ part ∈ s.splitOnP p, ∀ c ∈ part, p c = false := by
  intro s
  induction s with
  | nil =>
    intro part hp c hc
    rw [List.splitOnP_nil, List.mem_singleton] at hp
    subst hp
    simp at hc
  | cons x xs ih =>
    intro part hp c hc
    rw [List.splitOnP_cons] at hp
    by_cases hx : p x = true
    · rw [if_pos hx] at hp
      rcases List.mem_cons.mp hp with rfl | hp'
      · simp at hc
      · exact ih part hp' c hc
    · rw [if_neg hx] at hp
      obtain ⟨h', t', heq⟩ := List.exists_cons_of_ne_nil (List.splitOnP_ne_nil p xs)
      rw [heq, List.modifyHead_cons] at hp
      rcases List.mem_cons.mp hp with rfl | hp'
      · rcases List.mem_cons.mp hc with rfl | hc'
        · exact Bool.not_eq_true _ ▸ hx
        · exact ih h' (heq ▸ List.mem_cons_self ..) c hc'
      · exact ih part (heq ▸ List.mem_cons_of_mem _ hp') c hc

theorem noLN_splitOnP (p : Char → Bool) :
    ∀ (s : List Char), noLN s = true → ∀ part ∈ s.splitOnP p, noLN part = true := by
  intro s
  induction s with
  | nil =>
    intro _ part hp
    rw [List.splitOnP_nil, List.mem_singleton] at hp
    subst hp
    rfl
  | cons x xs ih =>
    intro hs part hp
    rw [List.splitOnP_cons] at hp
    by_cases hx : p x = true
    · rw [if_pos hx] at hp
      rcases List.mem_cons.mp hp with rfl | hp'
      · rfl
      · exact ih (noLN_tail hs) part hp'
    · rw [if_neg hx] at hp
      obtain ⟨h', t', heq⟩ := List.exists_cons_of_ne_nil (List.splitOnP_ne_nil p xs)
      rw [heq, List.modifyHead_cons] at hp
      rcases List.mem_cons.mp hp with rfl | hp'
      · have hh' : noLN h' = true :=
          ih (noLN_tail hs) h' (heq ▸ List.mem_cons_self ..)
        apply noLN_cons_intro hh'
        intro hd hhd hpair
        have hxhd : xs.head? = some hd := splitOnP_head_rel p xs h' t' heq hd hhd
        cases xs with
        | nil => simp at hxhd
        | cons d xs' =>
          rw [List.head?_cons, Option.some.injEq] at hxhd
          subst hxhd
          exact noLN_pair hs hpair
      · exact ih (noLN_tail hs) part (heq ▸ List.mem_cons_of_mem _ hp')

/-! ## The cleanliness invariant of the split-and-trimmed lines -/

theorem splitOn_eq_splitOnP (l : List Char) :
    l.splitOn '\n' = l.splitOnP (· == '\n') := rfl

/-- Every line produced by `pemLines` is trimmed, contains no line feed, no
carriage return, and no backslash-`n` pair. -/
theorem pemLines_clean {s l : List Char} (hl : l ∈ pemLines s) :
    trimChars l = l ∧ '\n' ∉ l ∧ '\r' ∉ l ∧ noLN l = true := by
  rw [pemLines, List.mem_map] at hl
  obtain ⟨part, hpart, rfl⟩ := hl
  rw [splitOn_eq_splitOnP] at hpart
  refine ⟨trimChars_idem part, ?_, ?_, ?_⟩
  · intro hmem
    have h1 := splitOnP_no_sep _ _ part hpart '\n' (mem_of_mem_trimChars hmem)
    simp at h1
  · intro hmem
    exact not_cr_mem_replCR (splitOnP_sub _ _ part hpart '\r' (mem_of_mem_trimChars hmem))
  · exact noLN_trimChars
      (noLN_splitOnP _ _ (noLN_replCR (noLN_replCRLF (noLN_replLitNL _))) part hpart)

/-! ## Facts about the boundary-line tests -/

theorem isBeginLine_ne_nil {l : List Char} (h : isBeginLine l = true) : l ≠ [] := by
  intro e
  subst e
  exact absurd h (by decide)

theorem isEndLine_ne_nil {l : List Char} (h : isEndLine l = true) : l ≠ [] := by
  intro e
  subst e
  exact absurd h (by decide)

/-- A line cannot match both the `BEGIN` and the `END` boundary pattern. -/
theorem begin_end_exclusive {l : List Char} (hb : isBeginLine l = true)
    (he : isEndLine l = true) : False := by
  rw [isBeginLine, matchesTag] at hb
  rw [isEndLine, matchesTag] at he
  have h1 : l.take beginMarker.length = beginMarker :=
    of_decide_eq_true (Bool.and_eq_true_iff.mp hb).1
  have h2 : l.take endMarker.length = endMarker :=
    of_decide_eq_true (Bool.and_eq_true_iff.mp he).1
  have h4 : (l.take beginMarker.length).take endMarker.length = l.take endMarker.length := by
    rw [List.take_take]
    norm_num [beginMarker, endMarker]
  rw [h1, h2] at h4
  exact absurd h4 (by decide)

/-! ## Lemmas about joining with line feeds -/

theorem joinLF_singleton (l : List Char) : joinLF [l] = l := by
  simp [joinLF, List.intercalate]

theorem joinLF_cons_cons (a b : List Char) (ls : List (List Char)) :
    joinLF (a :: b :: ls) = a ++ '\n' :: joinLF (b :: ls) := by
  simp [joinLF, List.intercalate, List.intersperse_cons_cons]

theorem joinLF_head_of_ne {a : List Char} {ls : List (List Char)} (ha : a ≠ []) :
    (joinLF (a :: ls)).head? = a.head? := by
  cases ls with
  | nil => rw [joinLF_singleton]
  | cons b ls' =>
    rw [joinLF_cons_cons, List.head?_append]
    cases h : a.head? with
    | none => exact absurd (List.head?_eq_none_iff.mp h) ha
    | some c => rfl

theorem joinLF_getLast : ∀ (ls : List (List Char)) (g : List Char) (z : Char),
    ls.getLast? = some g → g.getLast? = some z → (joinLF ls).getLast? = some z
  | [], g, z => by intro h _; simp at h
  | [a], g, z => by
    intro h hz
    have : a = g := by simpa using h
    subst this
    rw [joinLF_singleton]
    exact hz
  | a :: b :: ls, g, z => by
    intro h hz
    rw [List.getLast?_cons_cons] at h
    have ih := joinLF_getLast (b :: ls) g z h hz
    have hne : joinLF (b :: ls) ≠ [] := by
      intro e
      rw [e] at ih
      simp at ih
    obtain ⟨c, m, hcm⟩ := List.exists_cons_of_ne_nil hne
    rw [hcm] at ih
    rw [joinLF_cons_cons, List.getLast?_append, hcm, List.getLast?_cons_cons, ih]
    rfl

theorem mem_joinLF : ∀ {ls : List (List Char)} {c : Char},
    c ∈ joinLF ls → c = '\n' ∨ ∃ l ∈ ls, c ∈ l := by
  intro ls
  induction ls with
  | nil => intro c hc; simp [joinLF, List.intercalate] at hc
  | cons a ls ih =>
    intro c hc
    cases ls with
    | nil =>
      rw [joinLF_singleton] at hc
      exact Or.inr ⟨a, List.mem_cons_self .., hc⟩
    | cons b ls' =>
      rw [joinLF_cons_cons] at hc
      rcases List.mem_append.mp hc with h1 | h1
      · exact Or.inr ⟨a, List.mem_cons_self .., h1⟩
      · rcases List.mem_cons.mp h1 with rfl | h2
        · exact Or.inl rfl
        · rcases ih h2 with h3 | ⟨l, hl, hcl⟩
          · exact Or.inl h3
          · exact Or.inr ⟨l, List.mem_cons_of_mem _ hl, hcl⟩

theorem noLN_joinLF : ∀ {ls : List (List Char)},
    (∀ l ∈ ls, noLN l = true) → noLN (joinLF ls) = true := by
  intro ls
  induction ls with
  | nil => intro _; rfl
  | cons a ls ih =>
    intro h
    cases ls with
    | nil => rw [joinLF_singleton]; exact h a (List.mem_cons_self ..)
    | cons b ls' =>
      rw [joinLF_cons_cons]
      apply noLN_append_intro (h a (List.mem_cons_self ..))
      · apply noLN_cons_intro (ih (fun l hl => h l (List.mem_cons_of_mem _ hl)))
        intro hd _ hpair
        exact absurd hpair.1 (by decide)
      · intro p q _ hq hpair
        rw [List.head?_cons, Option.some.injEq] at hq
        subst hq
        exact absurd hpair.2 (by decide)

theorem splitOn_joinLF {ls : List (List Char)} (h : ∀ l ∈ ls, '\n' ∉ l)
    (hne : ls ≠ []) : (joinLF ls).splitOn '\n' = ls :=
  List.splitOn_intercalate ls '\n' h hne

/-! ## The two branches of the boundary selection -/

theorem findIdxFrom_eq_some {p : List Char → Bool} {k e : Nat} {ls : List (List Char)}
    (h : findIdxFrom p k ls = some e) :
    k ≤ e ∧ (ls.drop k).findIdx? p = some (e - k) := by
  rw [findIdxFrom, Option.map_eq_some'] at h
  obtain ⟨j, hj, rfl⟩ := h
  exact ⟨Nat.le_add_left .., by simpa using hj⟩

theorem findIdxFrom_eq_some_of {p : List Char → Bool} {k j : Nat} {ls : List (List Char)}
    (h : (ls.drop k).findIdx? p = some j) : findIdxFrom p k ls = some (j + k) := by
  rw [findIdxFrom, h]
  rfl

theorem findIdxFrom_eq_none {p : List Char → Bool} {k : Nat} {ls : List (List Char)} :
    findIdxFrom p k ls = none ↔ (ls.drop k).findIdx? p = none := by
  rw [findIdxFrom, Option.map_eq_none']

theorem selectLines_eq_slice {raw : List (List Char)} {b e : Nat}
    (hb : raw.findIdx? isBeginLine = some b)
    (he : findIdxFrom isEndLine (b + 1) raw = some e) :
    selectLines raw = (raw.drop b).take (e + 1 - b) := by
  have hbe : b < e := by
    have := (findIdxFrom_eq_some he).1
    omega
  simp only [selectLines, hb, he, if_pos hbe]

theorem selectLines_eq_filter_noBegin {raw : List (List Char)}
    (hb : raw.findIdx? isBeginLine = none) :
    selectLines raw = raw.filter keepLine := by
  simp only [selectLines, hb]

theorem selectLines_eq_filter_noEnd {raw : List (List Char)} {b : Nat}
    (hb : raw.findIdx? isBeginLine = some b)
    (he : findIdxFrom isEndLine (b + 1) raw = none) :
    selectLines raw = raw.filter keepLine := by
  simp only [selectLines, hb, he]

theorem findIdx?_take_of_some {α : Type} {p : α → Bool} {xs : List α} {i m : Nat}
    (h : xs.findIdx? p = some i) (him : i < m) : (xs.take m).findIdx? p = some i := by
  rw [List.findIdx?_eq_some_iff_getElem] at h ⊢
  obtain ⟨hlen, hp, hmin⟩ := h
  have hlen' : i < (xs.take m).length := by
    simp only [List.length_take]
    omega
  refine ⟨hlen', ?_, ?_⟩
  · rw [List.getElem_take]
    exact hp
  · intro j hji
    rw [List.getElem_take]
    exact hmin j hji

theorem findIdx?_append_first {α : Type} {p : α → Bool} {xs ys : List α} {z : α}
    (hxs : ∀ x ∈ xs, p x = false) (hz : p z = true) :
    (xs ++ z :: ys).findIdx? p = some xs.length := by
  induction xs with
  | nil => simp [hz]
  | cons a xs ih =>
    rw [List.cons_append, List.findIdx?_cons, if_neg (by simp [hxs a (List.mem_cons_self ..)]),
      List.findIdx?_start_succ, ih (fun x hx => hxs x (List.mem_cons_of_mem _ hx))]
    simp [Nat.add_comm]

/-- The inclusive slice between the first `BEGIN` line and the first
subsequent `END` line re-selects to itself. -/
theorem selectLines_slice_self {raw : List (List Char)} {b e : Nat}
    (hb : raw.findIdx? isBeginLine = some b)
    (he : findIdxFrom isEndLine (b + 1) raw = some e) :
    selectLines ((raw.drop b).take (e + 1 - b)) = (raw.drop b).take (e + 1 - b) := by
  obtain ⟨hble, hedrop⟩ := findIdxFrom_eq_some he
  have hbe : b < e := by omega
  obtain ⟨hblen, hbp, -⟩ := List.findIdx?_eq_some_iff_getElem.mp hb
  obtain ⟨helen, hep, -⟩ := List.findIdx?_eq_some_iff_getElem.mp hedrop
  have helen' : e < raw.length := by
    simp only [List.length_drop] at helen
    omega
  -- rewrite the slice as its head `raw[b]` followed by a take of the tail
  have hshape : (raw.drop b).take (e + 1 - b)
      = raw[b] :: (raw.drop (b + 1)).take (e - b) := by
    rw [List.drop_eq_getElem_cons hblen]
    have : e + 1 - b = (e - b) + 1 := by omega
    rw [this, List.take_succ_cons]
  rw [hshape]
  have hfind1 : (raw[b] :: (raw.drop (b + 1)).take (e - b)).findIdx? isBeginLine
      = some 0 := by
    rw [List.findIdx?_cons, if_pos hbp]
  have hfind2 : findIdxFrom isEndLine 1
      (raw[b] :: (raw.drop (b + 1)).take (e - b)) = some (e - b) := by
    have hdrop1 : (raw[b] :: (raw.drop (b + 1)).take (e - b)).drop 1
        = (raw.drop (b + 1)).take (e - b) := rfl
    have htake : ((raw.drop (b + 1)).take (e - b)).findIdx? isEndLine = some (e - (b + 1)) :=
      findIdx?_take_of_some hedrop (by omega)
    have h7 : ((raw[b] :: (raw.drop (b + 1)).take (e - b)).drop 1).findIdx? isEndLine
        = some (e - (b + 1)) := hdrop1 ▸ htake
    have := findIdxFrom_eq_some_of (k := 1) h7
    rw [this]
    congr 1
    omega
  rw [selectLines_eq_slice hfind1 hfind2, ← hshape, List.drop_zero,
    List.take_of_length_le (by simp only [List.length_take, List.length_drop]; omega)]

/-- When no line matches the `BEGIN` pattern, re-selecting the kept
non-empty lines is the identity. -/
theorem selectLines_filter_self_noBegin {raw : List (List Char)}
    (hb : raw.findIdx? isBeginLine = none) :
    selectLines (raw.filter keepLine) = raw.filter keepLine := by
  have hnone : (raw.filter keepLine).findIdx? isBeginLine = none := by
    rw [List.findIdx?_eq_none_iff] at hb ⊢
    intro x hx
    exact hb x (List.mem_filter.mp hx).1
  rw [selectLines_eq_filter_noBegin hnone]
  exact List.filter_eq_self.mpr (fun a ha => (List.mem_filter.mp ha).2)

/-- When a `BEGIN` line exists but no later `END` line does, re-selecting
the kept non-empty lines is the identity. -/
theorem selectLines_filter_self_noEnd {raw : List (List Char)} {b : Nat}
    (hb : raw.findIdx? isBeginLine = some b)
    (he : findIdxFrom isEndLine (b + 1) raw = none) :
    selectLines (raw.filter keepLine) = raw.filter keepLine := by
  obtain ⟨hblen, hbp, hbmin⟩ := List.findIdx?_eq_some_iff_getElem.mp hb
  have hraw : raw = raw.take b ++ raw[b] :: raw.drop (b + 1) := by
    conv_lhs => rw [← List.take_append_drop b raw]
    rw [List.drop_eq_getElem_cons hblen]
  have hpredb : keepLine raw[b] = true := by
    rw [keepLine]
    exact decide_eq_true (List.length_pos.mpr (isBeginLine_ne_nil hbp))
  have hfilter : raw.filter keepLine
      = (raw.take b).filter keepLine ++ raw[b] :: (raw.drop (b + 1)).filter keepLine := by
    conv_lhs => rw [hraw]
    rw [List.filter_append, List.filter_cons_of_pos hpredb]
  have hAfail : ∀ x ∈ (raw.take b).filter keepLine, isBeginLine x = false := by
    intro x hx
    obtain ⟨i, hi, hieq⟩ := List.mem_iff_getElem.mp (List.mem_filter.mp hx).1
    have hib : i < b := by
      simp only [List.length_take] at hi
      omega
    have hilen : i < raw.length := by omega
    have hgt : (raw.take b)[i] = raw[i] := List.getElem_take ..
    rw [← hieq, hgt]
    simpa using hbmin i hib
  have hfindF : (raw.filter keepLine).findIdx? isBeginLine
      = some ((raw.take b).filter keepLine).length := by
    rw [hfilter]
    exact findIdx?_append_first hAfail hbp
  have hdropF : (raw.filter keepLine).drop (((raw.take b).filter keepLine).length + 1)
      = (raw.drop (b + 1)).filter keepLine := by
    rw [hfilter, List.append_cons]
    exact List.drop_left' (by simp)
  have heF : findIdxFrom isEndLine (((raw.take b).filter keepLine).length + 1)
      (raw.filter keepLine) = none := by
    rw [findIdxFrom_eq_none, hdropF, List.findIdx?_eq_none_iff]
    intro x hx
    exact (List.findIdx?_eq_none_iff.mp (findIdxFrom_eq_none.mp he)) x
      (List.mem_filter.mp hx).1
  rw [selectLines_eq_filter_noEnd hfindF heF]
  exact List.filter_eq_self.mpr (fun a ha => (List.mem_filter.mp ha).2)

theorem selectLines_sub {raw : List (List Char)} {l : List Char}
    (h : l ∈ selectLines raw) : l ∈ raw := by
  cases hB : raw.findIdx? isBeginLine with
  | none =>
    rw [selectLines_eq_filter_noBegin hB] at h
    exact (List.mem_filter.mp h).1
  | some b =>
    cases hE : findIdxFrom isEndLine (b + 1) raw with
    | none =>
      rw [selectLines_eq_filter_noEnd hB hE] at h
      exact (List.mem_filter.mp h).1
    | some e =>
      rw [selectLines_eq_slice hB hE] at h
      exact List.mem_of_mem_drop (List.mem_of_mem_take h)

/-! ## Unfolding `normChars` -/

theorem normChars_of_blank {x : List Char} (h : trimChars x = []) :
    normChars x = [] := by
  simp only [normChars]
  rw [if_pos h]

theorem normChars_of_nonblank {x : List Char} (h : trimChars x ≠ []) :
    normChars x
      = ensureTrailingLF (joinLF (selectLines (pemLines (stripQuotes (trimChars x))))) := by
  simp only [normChars]
  rw [if_neg h]

/-- Core of the idempotence argument: a non-empty list of clean lines
with non-empty first and last line and a stable boundary selection is
restored verbatim by a second pass of `normChars`, provided the joined
text is not quote-wrapped. -/
theorem normChars_restores {lines : List (List Char)}
    (hclean : ∀ l ∈ lines, trimChars l = l ∧ '\n' ∉ l ∧ '\r' ∉ l ∧ noLN l = true)
    (hne : lines ≠ [])
    (hfirst : ∀ l, lines.head? = some l → l ≠ [])
    (hlast : ∀ l, lines.getLast? = some l → l ≠ [])
    (hsel : selectLines lines = lines) :
    ensureTrailingLF (joinLF lines) = joinLF lines ++ ['\n'] ∧
      (quoteWrapped (trimChars (joinLF lines ++ ['\n'])) = false →
        normChars (joinLF lines ++ ['\n']) = joinLF lines ++ ['\n']) := by
  obtain ⟨a, ls', rfl⟩ := List.exists_cons_of_ne_nil hne
  set lines := a :: ls' with hlines_def
  have ha : a ≠ [] := hfirst a rfl
  obtain ⟨c, a', ha_eq⟩ := List.exists_cons_of_ne_nil ha
  have hc : a.head? = some c := by rw [ha_eq]; rfl
  have hamem : a ∈ lines := List.mem_cons_self ..
  have hcws : isJsWs c = false := trimmed_head_not_ws (hclean a hamem).1 hc
  have hyhead : (joinLF lines).head? = some c := by
    rw [joinLF_head_of_ne ha, hc]
  set g := lines.getLast (by simp [hlines_def]) with hg_def
  have hg : lines.getLast? = some g := List.getLast?_eq_getLast ..
  have hgne : g ≠ [] := hlast g hg
  have hgmem : g ∈ lines := List.getLast_mem _
  set w := g.getLast hgne with hw_def
  have hgw : g.getLast? = some w := List.getLast?_eq_getLast ..
  have hwws : isJsWs w = false := trimmed_getLast_not_ws (hclean g hgmem).1 hgw
  have hylast : (joinLF lines).getLast? = some w := joinLF_getLast lines g w hg hgw
  have hyne : joinLF lines ≠ [] := by
    intro e
    rw [e] at hyhead
    simp at hyhead
  have hwne : w ≠ '\n' := by
    intro e
    rw [e] at hwws
    exact absurd hwws (by decide)
  have hETL : ensureTrailingLF (joinLF lines) = joinLF lines ++ ['\n'] := by
    rw [ensureTrailingLF, if_neg]
    rw [hylast]
    simp [hwne]
  refine ⟨hETL, ?_⟩
  intro hq
  have htrim : trimChars (joinLF lines ++ ['\n']) = joinLF lines := by
    apply trimChars_append_lf hyne
    · intro c' hc'
      rw [hyhead, Option.some.injEq] at hc'
      subst hc'
      exact hcws
    · intro c' hc'
      rw [hylast, Option.some.injEq] at hc'
      subst hc'
      exact hwws
  rw [htrim] at hq
  have hblank : trimChars (joinLF lines ++ ['\n']) ≠ [] := by
    rw [htrim]
    exact hyne
  rw [normChars_of_nonblank hblank, htrim]
  have hsq : stripQuotes (joinLF lines) = joinLF lines := by
    rw [stripQuotes, if_neg]
    simp [hq]
  rw [hsq]
  have hrepl1 : replLitNL (joinLF lines) = joinLF lines :=
    replLitNL_of_noLN (noLN_joinLF (fun l hl => (hclean l hl).2.2.2))
  have hnocr : '\r' ∉ joinLF lines := by
    intro hmem
    rcases mem_joinLF hmem with h | ⟨l, hl, hcl⟩
    · exact absurd h (by decide)
    · exact (hclean l hl).2.2.1 hcl
  have hsplit : (joinLF lines).splitOn '\n' = lines :=
    splitOn_joinLF (fun l hl => (hclean l hl).2.1) (by simp [hlines_def])
  have hmap : lines.map trimChars = lines := by
    conv_rhs => rw [← List.map_id lines]
    exact List.map_congr_left (fun l hl => (hclean l hl).1)
  rw [pemLines, hrepl1, replCRLF_of_noCR hnocr, replCR_of_noCR hnocr, hsplit, hmap, hsel,
    hETL]

/-- Idempotence of `normChars` outside the two exceptional situations:
the output being the bare `"\n"` and the output re-triggering the
quote-stripping. -/
theorem normChars_idem (x : List Char)
    (h1 : normChars x ≠ ['\n'])
    (h2 : quoteWrapped (trimChars (normChars x)) = false) :
    normChars (normChars x) = normChars x := by
  by_cases hs : trimChars x = []
  · rw [normChars_of_blank hs]
    exact normChars_of_blank rfl
  · have hnorm : normChars x
        = ensureTrailingLF (joinLF (selectLines (pemLines (stripQuotes (trimChars x))))) :=
      normChars_of_nonblank hs
    set raw := pemLines (stripQuotes (trimChars x)) with hraw_def
    set lines := selectLines raw with hlines_def
    have hclean : ∀ l ∈ lines, trimChars l = l ∧ '\n' ∉ l ∧ '\r' ∉ l ∧ noLN l = true :=
      fun l hl => pemLines_clean (selectLines_sub hl)
    have hkey : lines ≠ [] ∧ (∀ l, lines.head? = some l → l ≠ []) ∧
        (∀ l, lines.getLast? = some l → l ≠ []) ∧ selectLines lines = lines := by
      cases hB : raw.findIdx? isBeginLine with
      | some b =>
        cases hE : findIdxFrom isEndLine (b + 1) raw with
        | some e =>
          obtain ⟨hble, hedrop⟩ := findIdxFrom_eq_some hE
          obtain ⟨hblen, hbp, -⟩ := List.findIdx?_eq_some_iff_getElem.mp hB
          obtain ⟨helen, hep, -⟩ := List.findIdx?_eq_some_iff_getElem.mp hedrop
          have hbe : b < e := by omega
          have helen' : e < raw.length := by
            simp only [List.length_drop] at helen
            omega
          have hshape : lines = raw[b] :: (raw.drop (b + 1)).take (e - b) := by
            rw [hlines_def, selectLines_eq_slice hB hE, List.drop_eq_getElem_cons hblen]
            have hidx : e + 1 - b = (e - b) + 1 := by omega
            rw [hidx, List.take_succ_cons]
          have hTlen : ((raw.drop (b + 1)).take (e - b)).length = e - b := by
            simp only [List.length_take, List.length_drop]
            omega
          have hgetlast : lines.getLast? = some (raw[e]) := by
            rw [List.getLast?_eq_getElem?, hshape]
            have hlen : (raw[b] :: (raw.drop (b + 1)).take (e - b)).length - 1 = e - b := by
              simp only [List.length_cons, hTlen]
              omega
            rw [hlen]
            have hstep : e - b = (e - b - 1) + 1 := by omega
            rw [hstep, List.getElem?_cons_succ, List.getElem?_take_of_lt (by omega),
              List.getElem?_drop]
            have : b + 1 + (e - b - 1) = e := by omega
            rw [this, List.getElem?_eq_getElem helen']
          refine ⟨by rw [hshape]; simp, ?_, ?_, ?_⟩
          · intro l hl
            rw [hshape, List.head?_cons, Option.some.injEq] at hl
            subst hl
            exact isBeginLine_ne_nil hbp
          · intro l hl
            rw [hgetlast, Option.some.injEq] at hl
            subst hl
            apply isEndLine_ne_nil
            have hde : (raw.drop (b + 1))[e - (b + 1)] = raw[e] := by
              rw [List.getElem_drop]
              congr 1
              omega
            rw [← hde]
            exact hep
          · rw [hlines_def, selectLines_eq_slice hB hE]
            exact selectLines_slice_self hB hE
        | none =>
          have hfe : lines = raw.filter keepLine := by
            rw [hlines_def, selectLines_eq_filter_noEnd hB hE]
          have hne : lines ≠ [] := by
            intro e
            apply h1
            rw [hnorm, e]
            rfl
          have hmemne : ∀ l ∈ lines, l ≠ [] := by
            intro l hl
            rw [hfe] at hl
            have := (List.mem_filter.mp hl).2
            rw [keepLine] at this
            exact List.length_pos.mp (of_decide_eq_true this)
          refine ⟨hne, ?_, ?_, ?_⟩
          · intro l hl
            exact hmemne l (List.mem_of_mem_head? hl)
          · intro l hl
            have := List.mem_of_mem_getLast? hl
            exact hmemne l this
          · rw [hfe]
            exact selectLines_filter_self_noEnd hB hE
      | none =>
        have hfe : lines = raw.filter keepLine := by
          rw [hlines_def, selectLines_eq_filter_noBegin hB]
        have hne : lines ≠ [] := by
          intro e
          apply h1
          rw [hnorm, e]
          rfl
        have hmemne : ∀ l ∈ lines, l ≠ [] := by
          intro l hl
          rw [hfe] at hl
          have := (List.mem_filter.mp hl).2
          rw [keepLine] at this
          exact List.length_pos.mp (of_decide_eq_true this)
        refine ⟨hne, ?_, ?_, ?_⟩
        · intro l hl
          exact hmemne l (List.mem_of_mem_head? hl)
        · intro l hl
          have := List.mem_of_mem_getLast? hl
          exact hmemne l this
        · rw [hfe]
          exact selectLines_filter_self_noBegin hB
    obtain ⟨hne, hfirst, hlastE, hsel⟩ := hkey
    obtain ⟨hETL, hrest⟩ := normChars_restores hclean hne hfirst hlastE hsel
    have hx_eq : normChars x = joinLF lines ++ ['\n'] := by
      rw [hnorm, hETL]
    rw [hx_eq]
    apply hrest
    rw [← hx_eq]
    exact h2

theorem normChars_getLast {x : List Char} (h : trimChars x ≠ []) :
    (normChars x).getLast? = some '\n' := by
  rw [normChars_of_nonblank h, ensureTrailingLF]
  by_cases hc : (joinLF (selectLines (pemLines (stripQuotes (trimChars x))))).getLast?
      = some '\n'
  · rw [if_pos hc]
    exact hc
  · rw [if_neg hc]
    exact List.getLast?_concat _

/-! ## Claims about `normalizePem` -/

/-- Claim C1, counterexample: `normalizePem` is not idempotent.  On the
two-character input consisting of two double quotes, the first pass strips
the quote pair to the empty string and pads it to `"\n"`, while the second
pass trims `"\n"` down to the blank input and returns `""`. -/
theorem C1_counterexample :
    normalizePem (some (normalizePem (some "\"\""))) ≠ normalizePem (some "\"\"") := by
  decide

/-- Claim C1, amended: `normalizePem` is idempotent on every input whose
first-pass output is neither the bare newline string nor, after trimming,
wrapped in a matching pair of quote characters (the two situations the
counterexample exhibits). -/
theorem C1_normalizePem_idempotent (x : String)
    (h1 : normalizePem (some x) ≠ "\n")
    (h2 : quoteWrapped (trimChars (normalizePem (some x)).data) = false) :
    normalizePem (some (normalizePem (some x))) = normalizePem (some x) := by
  have h1' : normChars x.data ≠ ['\n'] := by
    intro e
    apply h1
    show String.mk (normChars x.data) = "\n"
    rw [e]
  show String.mk (normChars (normChars x.data)) = String.mk (normChars x.data)
  exact congrArg String.mk (normChars_idem x.data h1' h2)

theorem C1_witness :
    normalizePem (some (normalizePem (some "-----BEGIN KEY-----\\nAAAA\\n-----END KEY-----")))
      = normalizePem (some "-----BEGIN KEY-----\\nAAAA\\n-----END KEY-----") :=
  C1_normalizePem_idempotent _ (by decide) (by decide)

/-- Claim C4: absent (`none`, i.e. `null`/`undefined`) or blank (empty or
white-space-only, i.e. trimming to nothing) input yields the empty string,
and any other input yields a string ending in a line feed. -/
theorem C4_blank_empty_and_trailing_newline (input : Option String) :
    (trimChars (input.getD "").data = [] → normalizePem input = "") ∧
    (trimChars (input.getD "").data ≠ [] →
      (normalizePem input).data.getLast? = some '\n') := by
  constructor
  · intro h
    show String.mk (normChars (input.getD "").data) = ""
    rw [normChars_of_blank h]
  · intro h
    show (normChars (input.getD "").data).getLast? = some '\n'
    exact normChars_getLast h

theorem C4_witness :
    normalizePem (some "  \t ") = "" ∧ (normalizePem (some "abc")).data.getLast? = some '\n' :=
  ⟨(C4_blank_empty_and_trailing_newline (some "  \t ")).1 (by decide),
    (C4_blank_empty_and_trailing_newline (some "abc")).2 (by decide)⟩

/-- Claim C5: on non-blank input, if line `b` is the first line matching
the `BEGIN` pattern and line `e` (at or after `b`) is the first line at or
after `b` matching the `END` pattern, `normalizePem` keeps exactly the
inclusive slice of the trimmed lines from `b` to `e`; if no such pair
exists, it keeps all non-empty trimmed lines in order. -/
theorem C5_begin_end_selection (x : String) (hs : trimChars x.data ≠ []) :
    (∀ (b e : Nat) (lb le : List Char),
      (rawLinesOf x)[b]? = some lb → isBeginLine lb = true →
      (∀ l ∈ (rawLinesOf x).take b, isBeginLine l = false) →
      b ≤ e →
      (rawLinesOf x)[e]? = some le → isEndLine le = true →
      (∀ l ∈ ((rawLinesOf x).drop b).take (e - b), isEndLine l = false) →
      normalizePem (some x)
        = ⟨ensureTrailingLF (joinLF (((rawLinesOf x).drop b).take (e + 1 - b)))⟩) ∧
    ((¬ ∃ (b e : Nat) (lb le : List Char),
        (rawLinesOf x)[b]? = some lb ∧ isBeginLine lb = true ∧ b ≤ e ∧
        (rawLinesOf x)[e]? = some le ∧ isEndLine le = true) →
      normalizePem (some x)
        = ⟨ensureTrailingLF (joinLF ((rawLinesOf x).filter keepLine))⟩) := by
  constructor
  · intro b e lb le hb hbp hbmin hbe he hep hemin
    obtain ⟨hblt, hbeq⟩ := List.getElem?_eq_some_iff.mp hb
    obtain ⟨helt, heeq⟩ := List.getElem?_eq_some_iff.mp he
    have hbne : b ≠ e := by
      intro hcontra
      subst hcontra
      rw [hbeq] at heeq
      subst heeq
      exact begin_end_exclusive hbp hep
    have hblt' : b < e := by omega
    have hfb : (rawLinesOf x).findIdx? isBeginLine = some b := by
      rw [List.findIdx?_eq_some_iff_getElem]
      refine ⟨hblt, by rw [hbeq]; exact hbp, ?_⟩
      intro j hj
      have hjlen : j < (rawLinesOf x).length := by omega
      have hmem : (rawLinesOf x)[j] ∈ (rawLinesOf x).take b :=
        List.mem_iff_getElem?.mpr
          ⟨j, by rw [List.getElem?_take_of_lt hj, List.getElem?_eq_getElem]⟩
      simp [hbmin _ hmem]
    have hfe : findIdxFrom isEndLine (b + 1) (rawLinesOf x) = some e := by
      have hdrop : ((rawLinesOf x).drop (b + 1)).findIdx? isEndLine = some (e - (b + 1)) := by
        rw [List.findIdx?_eq_some_iff_getElem]
        have hlen : e - (b + 1) < ((rawLinesOf x).drop (b + 1)).length := by
          simp only [List.length_drop]
          omega
        refine ⟨hlen, ?_, ?_⟩
        · rw [List.getElem_drop]
          have : b + 1 + (e - (b + 1)) = e := by omega
          simp only [this]
          rw [heeq]
          exact hep
        · intro j hj
          rw [List.getElem_drop]
          have hjlen : b + 1 + j < (rawLinesOf x).length := by
            simp only [List.length_drop] at hlen
            omega
          have hmem : (rawLinesOf x)[b + 1 + j]
              ∈ ((rawLinesOf x).drop b).take (e - b) := by
            apply List.mem_iff_getElem?.mpr
            refine ⟨j + 1, ?_⟩
            rw [List.getElem?_take_of_lt (by omega), List.getElem?_drop,
              show b + (j + 1) = b + 1 + j from by omega, List.getElem?_eq_getElem]
          simp [hemin _ hmem]
      have := findIdxFrom_eq_some_of hdrop
      rw [this]
      congr 1
      omega
    show String.mk (normChars x.data) = _
    rw [normChars_of_nonblank hs,
      show pemLines (stripQuotes (trimChars x.data)) = rawLinesOf x from rfl,
      selectLines_eq_slice hfb hfe]
  · intro hnp
    show String.mk (normChars x.data) = _
    rw [normChars_of_nonblank hs]
    cases hB : (rawLinesOf x).findIdx? isBeginLine with
    | none => rw [show pemLines (stripQuotes (trimChars x.data)) = rawLinesOf x from rfl,
        selectLines_eq_filter_noBegin hB]
    | some b =>
      cases hE : findIdxFrom isEndLine (b + 1) (rawLinesOf x) with
      | none => rw [show pemLines (stripQuotes (trimChars x.data)) = rawLinesOf x from rfl,
          selectLines_eq_filter_noEnd hB hE]
      | some e =>
        exfalso
        apply hnp
        obtain ⟨hble, hedrop⟩ := findIdxFrom_eq_some hE
        obtain ⟨hblen, hbp, -⟩ := List.findIdx?_eq_some_iff_getElem.mp hB
        obtain ⟨helen, hep, -⟩ := List.findIdx?_eq_some_iff_getElem.mp hedrop
        have helen' : e < (rawLinesOf x).length := by
          simp only [List.length_drop] at helen
          omega
        refine ⟨b, e, (rawLinesOf x)[b], ((rawLinesOf x).drop (b + 1))[e - (b + 1)],
          List.getElem?_eq_getElem hblen, hbp, by omega, ?_, hep⟩
        conv_lhs => rw [show e = b + 1 + (e - (b + 1)) from by omega]
        rw [← List.getElem?_drop, List.getElem?_eq_getElem helen]

set_option maxHeartbeats 2000000 in
theorem C5_witness :
    normalizePem (some "j\n-----BEGIN X-----\nA\n-----END X-----\nt")
      = "-----BEGIN X-----\nA\n-----END X-----\n" := by
  have h := (C5_begin_end_selection "j\n-----BEGIN X-----\nA\n-----END X-----\nt"
      (by decide)).1
    1 3 "-----BEGIN X-----".data "-----END X-----".data
    (by decide) (by decide) (by decide) (by decide) (by decide) (by decide) (by decide)
  rw [h]
  decide

/-- Claim C6: `normalizePem` is a total function (it is a Lean `def`
defined for every input, including `none` for `null`/`undefined`, so it
never throws), and input whose lines cannot be reconciled into a
`BEGIN`/`END` pair — the embedded `findIndex` searches of the source find
no such pair — is returned as the best-effort line-cleaned text: the
non-empty trimmed lines rejoined with a trailing line feed (or the empty
string for blank input). -/
theorem C6_total_best_effort (input : Option String)
    (hnp : (rawLinesOf (input.getD "")).findIdx? isBeginLine = none
      ∨ ∃ b, (rawLinesOf (input.getD "")).findIdx? isBeginLine = some b
          ∧ findIdxFrom isEndLine (b + 1) (rawLinesOf (input.getD "")) = none) :
    normalizePem input
      = if trimChars (input.getD "").data = [] then ""
        else ⟨ensureTrailingLF (joinLF ((rawLinesOf (input.getD "")).filter keepLine))⟩ := by
  by_cases hblank : trimChars (input.getD "").data = []
  · rw [if_pos hblank]
    show String.mk (normChars (input.getD "").data) = ""
    rw [normChars_of_blank hblank]
  · rw [if_neg hblank]
    show String.mk (normChars (input.getD "").data) = _
    rw [normChars_of_nonblank hblank]
    rcases hnp with hB | ⟨b, hB, hE⟩
    · rw [show pemLines (stripQuotes (trimChars (input.getD "").data))
          = rawLinesOf (input.getD "") from rfl, selectLines_eq_filter_noBegin hB]
    · rw [show pemLines (stripQuotes (trimChars (input.getD "").data))
          = rawLinesOf (input.getD "") from rfl, selectLines_eq_filter_noEnd hB hE]

theorem C6_witness :
    normalizePem (some " hello \n\n world ") = "hello\nworld\n" := by
  have h := C6_total_best_effort (some " hello \n\n world ") (Or.inl (by decide))
  rw [h]
  decide

/-! ## Claims about the `POST /api/decrypt` handler -/

/-- Claim C2, counterexample: the success response body of the handler is
not exactly `{ok:true, payload:string}`: on a request where both WASM
calls succeed, the body carries two further fields, `timings` and `debug`
(the debug transparency aid §9 of the spec acknowledges). -/
theorem C2_counterexample :
    ¬ ∃ pkt : String, (POST rtDemo modDemoOk (.ok bodyDemo)).1.body
      = Json.obj [("ok", Json.bool true), ("payload", Json.str pkt)] := by
  rintro ⟨pkt, h⟩
  rw [show (POST rtDemo modDemoOk (.ok bodyDemo)).1.body
      = Json.obj [("ok", Json.bool true), ("payload", Json.str "PACKET"),
          ("timings", Json.obj [("server_decrypt_ms", Json.num 0),
            ("server_encrypt_ms", Json.num 0)]),
          ("debug", Json.obj [("server_decrypted_plaintext", Json.str "PLAINTEXT"),
            ("server_response_plaintext", Json.str "SERIALIZED")])] from rfl] at h
  simp at h

/-- Claim C2, amended: on every request in which both WASM calls succeed,
the handler responds with status 200 and a body whose fields are exactly
`ok:true`, `payload` (the packet string returned by
`server_encrypt_with_wrapped`), `timings` and `debug`, in this order. -/
theorem C2_success_body (rt : JsRuntime) (mod : WasmModule) (body : Json)
    (w p pt pkt : String)
    (hw : asString (jsGet body "wrapped_key_b64") = some w)
    (hp : asString (jsGet body "payload") = some p)
    (hdec : mod.server_decrypt_with_wrapped w p = .ok pt)
    (henc : mod.server_encrypt_with_wrapped w (rt.stringifyJson (responseObj rt pt))
      = .ok pkt) :
    POST rt mod (.ok body)
      = (⟨200, Json.obj [
          ("ok", Json.bool true),
          ("payload", Json.str pkt),
          ("timings", Json.obj [
            ("server_decrypt_ms", Json.num (rt.now 1 - rt.now 0)),
            ("server_encrypt_ms", Json.num (rt.now 4 - rt.now 3))]),
          ("debug", Json.obj [
            ("server_decrypted_plaintext", Json.str pt),
            ("server_response_plaintext",
              Json.str (rt.stringifyJson (responseObj rt pt)))])]⟩,
        [WasmCall.dec w p, WasmCall.enc w (rt.stringifyJson (responseObj rt pt))]) := by
  simp only [POST, hw, hp, hdec, henc]

theorem C2_witness :
    POST rtDemo modDemoOk (.ok bodyDemo)
      = (⟨200, Json.obj [
          ("ok", Json.bool true),
          ("payload", Json.str "PACKET"),
          ("timings", Json.obj [
            ("server_decrypt_ms", Json.num (rtDemo.now 1 - rtDemo.now 0)),
            ("server_encrypt_ms", Json.num (rtDemo.now 4 - rtDemo.now 3))]),
          ("debug", Json.obj [
            ("server_decrypted_plaintext", Json.str "PLAINTEXT"),
            ("server_response_plaintext",
              Json.str (rtDemo.stringifyJson (responseObj rtDemo "PLAINTEXT")))])]⟩,
        [WasmCall.dec "W" "P",
         WasmCall.enc "W" (rtDemo.stringifyJson (responseObj rtDemo "PLAINTEXT"))]) :=
  C2_success_body rtDemo modDemoOk bodyDemo "W" "P" "PLAINTEXT" "PACKET" rfl rfl rfl rfl

/-- Claim C3: when `server_decrypt_with_wrapped` throws, the handler aborts
the request: the WASM call trace is exactly the single decrypt call (so
there is no retry and `server_encrypt_with_wrapped` is never invoked), the
handler — a pure function with no mutable state — caches nothing, and the
response is a 500 with body `{ok:false, error:string}`. -/
theorem C3_decrypt_failure_aborts (rt : JsRuntime) (mod : WasmModule) (body : Json)
    (w p e : String)
    (hw : asString (jsGet body "wrapped_key_b64") = some w)
    (hp : asString (jsGet body "payload") = some p)
    (hdec : mod.server_decrypt_with_wrapped w p = .error e) :
    POST rt mod (.ok body)
      = (⟨500, Json.obj [("ok", Json.bool false), ("error", Json.str e)]⟩,
         [WasmCall.dec w p]) := by
  simp only [POST, hw, hp, hdec]

theorem C3_witness :
    POST rtDemo modDemoFail (.ok bodyDemo)
      = (⟨500, Json.obj [("ok", Json.bool false), ("error", Json.str "unwrap failed")]⟩,
         [WasmCall.dec "W" "P"]) :=
  C3_decrypt_failure_aborts rtDemo modDemoFail bodyDemo "W" "P" "unwrap failed" rfl rfl rfl

/-- Claim C9: when the parsed JSON body lacks a string-typed
`wrapped_key_b64` or a string-typed `payload`, the handler responds with
status 400 and body `{ok:false, error:string}`, and the WASM call trace is
empty: neither `server_decrypt_with_wrapped` nor
`server_encrypt_with_wrapped` is invoked. -/
theorem C9_missing_fields_400 (rt : JsRuntime) (mod : WasmModule) (body : Json)
    (h : asString (jsGet body "wrapped_key_b64") = none
      ∨ asString (jsGet body "payload") = none) :
    POST rt mod (.ok body)
      = (⟨400, Json.obj [("ok", Json.bool false),
          ("error", Json.str "缺少 wrapped_key_b64 或 payload")]⟩, []) := by
  rcases h with h | h
  · simp only [POST, h]
  · cases hw : asString (jsGet body "wrapped_key_b64") with
    | none => simp only [POST, hw]
    | some w => simp only [POST, hw, h]

theorem C9_witness :
    POST rtDemo modDemoOk (.ok bodyDemoNoKey)
      = (⟨400, Json.obj [("ok", Json.bool false),
          ("error", Json.str "缺少 wrapped_key_b64 或 payload")]⟩, []) :=
  C9_missing_fields_400 rtDemo modDemoOk bodyDemoNoKey (Or.inl rfl)

/-- Claim C10: every response the handler produces has status 200, 400 or
500, its body is a JSON object carrying a boolean field `ok` (as its first
field), and the status is 200 exactly when `ok` is `true`. -/
theorem C10_status_ok_invariant (rt : JsRuntime) (mod : WasmModule)
    (bodyResult : Except String Json) :
    ((POST rt mod bodyResult).1.status = 200 ∨ (POST rt mod bodyResult).1.status = 400 ∨
      (POST rt mod bodyResult).1.status = 500) ∧
    ∃ (bk : Bool) (rest : List (String × Json)),
      (POST rt mod bodyResult).1.body = Json.obj (("ok", Json.bool bk) :: rest) ∧
      ((POST rt mod bodyResult).1.status = 200 ↔ bk = true) := by
  rcases bodyResult with e | body
  · exact ⟨Or.inr (Or.inr rfl), false, [("error", Json.str e)], rfl, by simp [POST]⟩
  · cases hw : asString (jsGet body "wrapped_key_b64") with
    | none =>
      refine ⟨Or.inr (Or.inl ?_), false,
        [("error", Json.str "缺少 wrapped_key_b64 或 payload")], ?_, ?_⟩ <;>
        simp [POST, hw]
    | some w =>
      cases hp : asString (jsGet body "payload") with
      | none =>
        refine ⟨Or.inr (Or.inl ?_), false,
          [("error", Json.str "缺少 wrapped_key_b64 或 payload")], ?_, ?_⟩ <;>
          simp [POST, hw, hp]
      | some p =>
        cases hdec : mod.server_decrypt_with_wrapped w p with
        | error e =>
          refine ⟨Or.inr (Or.inr ?_), false, [("error", Json.str e)], ?_, ?_⟩ <;>
            simp [POST, hw, hp, hdec]
        | ok pt =>
          cases henc : mod.server_encrypt_with_wrapped w
              (rt.stringifyJson (responseObj rt pt)) with
          | error e =>
            refine ⟨Or.inr (Or.inr ?_), false, [("error", Json.str e)], ?_, ?_⟩ <;>
              simp [POST, hw, hp, hdec, henc]
          | ok pkt =>
            refine ⟨Or.inl ?_, true, ?_, ?_, ?_⟩
            case _ => simp [POST, hw, hp, hdec, henc]
            case _ => exact [("payload", Json.str pkt),
              ("timings", Json.obj [
                ("server_decrypt_ms", Json.num (rt.now 1 - rt.now 0)),
                ("server_encrypt_ms", Json.num (rt.now 4 - rt.now 3))]),
              ("debug", Json.obj [
                ("server_decrypted_plaintext", Json.str pt),
                ("server_response_plaintext",
                  Json.str (rt.stringifyJson (responseObj rt pt)))])]
            case _ => simp [POST, hw, hp, hdec, henc]
            case _ => simp [POST, hw, hp, hdec, henc]

/-! ## base64url inversion and the codec round trip -/

theorem b64Val_b64Char : ∀ i : Nat, i < 64 → b64Val (b64Char i) = i := by decide

theorem b64urlEncode_three (a b c : Nat) (r : List Nat) :
    b64urlEncode (a :: b :: c :: r)
      = b64Char (a / 4) :: b64Char (a % 4 * 16 + b / 16) :: b64Char (b % 16 * 4 + c / 64) ::
        b64Char (c % 64) :: b64urlEncode r := rfl

theorem b64urlDecode_four (c0 c1 c2 c3 : Char) (r : List Char) :
    b64urlDecode (c0 :: c1 :: c2 :: c3 :: r)
      = (b64Val c0 * 4 + b64Val c1 / 16) ::
        (b64Val c1 % 16 * 16 + b64Val c2 / 4) ::
        (b64Val c2 % 4 * 64 + b64Val c3) ::
        b64urlDecode r := rfl

/-- base64url without padding decodes its own encoding of any byte list. -/
theorem b64url_roundtrip : ∀ l : List Nat, (∀ b ∈ l, b < 256) →
    b64urlDecode (b64urlEncode l) = l
  | [], _ => rfl
  | [a], h => by
    have ha : a < 256 := h a (List.mem_cons_self ..)
    show [b64Val (b64Char (a / 4)) * 4 + b64Val (b64Char (a % 4 * 16)) / 16] = [a]
    rw [b64Val_b64Char _ (by omega), b64Val_b64Char _ (by omega)]
    simp only [List.cons.injEq, and_true]
    omega
  | [a, b], h => by
    have ha : a < 256 := h a (List.mem_cons_self ..)
    have hb : b < 256 := h b (List.mem_cons_of_mem _ (List.mem_cons_self ..))
    show [b64Val (b64Char (a / 4)) * 4 + b64Val (b64Char (a % 4 * 16 + b / 16)) / 16,
        b64Val (b64Char (a % 4 * 16 + b / 16)) % 16 * 16 + b64Val (b64Char (b % 16 * 4)) / 4]
      = [a, b]
    rw [b64Val_b64Char _ (by omega), b64Val_b64Char _ (by omega), b64Val_b64Char _ (by omega)]
    simp only [List.cons.injEq, and_true]
    omega
  | a :: b :: c :: r, h => by
    have ha : a < 256 := h a (List.mem_cons_self ..)
    have hb : b < 256 := h b (List.mem_cons_of_mem _ (List.mem_cons_self ..))
    have hc : c < 256 :=
      h c (List.mem_cons_of_mem _ (List.mem_cons_of_mem _ (List.mem_cons_self ..)))
    have hr : ∀ x ∈ r, x < 256 := fun x hx =>
      h x (List.mem_cons_of_mem _ (List.mem_cons_of_mem _ (List.mem_cons_of_mem _ hx)))
    rw [b64urlEncode_three, b64urlDecode_four,
      b64Val_b64Char _ (by omega), b64Val_b64Char _ (by omega),
      b64Val_b64Char _ (by omega), b64Val_b64Char _ (by omega),
      b64url_roundtrip r hr]
    simp only [List.cons.injEq, and_true]
    omega

/-- Claim C7 (modelled from the spec; the Rust codec source is not in the
repository): for every plaintext byte sequence `P`, valid 32-byte key and
96-bit nonce, and any AEAD satisfying the trusted-library inversion
property, `decrypt (encrypt P K) K` recovers exactly `P`.  The proof
checks the version/algorithm tags and inverts the base64url coding of the
nonce and ciphertext fields of the `SymmetricPacket`. -/
theorem C7_codec_roundtrip (A : AEAD) (P key nonce : List Nat)
    (hkey : key.length = 32) (hnonce : nonce.length = 12)
    (hnb : ∀ b ∈ nonce, b < 256)
    (hcb : ∀ b ∈ A.aeadSeal key nonce P, b < 256) :
    decrypt A (encrypt A P key nonce) key = some P := by
  rw [encrypt, decrypt, if_pos ⟨rfl, rfl⟩]
  show A.aeadOpen key (b64urlDecode (b64urlEncode nonce))
    (b64urlDecode (b64urlEncode (A.aeadSeal key nonce P))) = some P
  rw [b64url_roundtrip nonce hnb, b64url_roundtrip _ hcb, A.aeadOpen_aeadSeal]

theorem C7_witness :
    decrypt aeadDemo (encrypt aeadDemo [104, 105] keyDemo nonceDemo) keyDemo
      = some [104, 105] :=
  C7_codec_roundtrip aeadDemo [104, 105] keyDemo nonceDemo
    (by decide) (by decide) (by decide) (by decide)

/-! ## Session freshness -/

theorem unaryDecAux_replicate (n : Nat) (r : List Char) (acc : Nat) :
    unaryDecAux (List.replicate n 'x' ++ 'y' :: r) acc = (acc + n) :: unaryDecAux r 0 := by
  induction n generalizing acc with
  | zero => simp [unaryDecAux]
  | succ n ih =>
    rw [List.replicate_succ, List.cons_append]
    rw [show unaryDecAux ('x' :: (List.replicate n 'x' ++ 'y' :: r)) acc
      = unaryDecAux (List.replicate n 'x' ++ 'y' :: r) (acc + 1) from rfl, ih]
    have : acc + 1 + n = acc + (n + 1) := by omega
    rw [this]

theorem unaryDec_unaryEnc : ∀ k : List Nat, unaryDec (unaryEnc k) = k := by
  intro k
  induction k with
  | nil => rfl
  | cons n k' ih =>
    show unaryDecAux (unaryEnc (n :: k')) 0 = n :: k'
    have henc : unaryEnc (n :: k') = List.replicate n 'x' ++ 'y' :: unaryEnc k' := by
      show ((n :: k').map fun m => List.replicate m 'x' ++ ['y']).flatten = _
      rw [List.map_cons, List.flatten_cons, List.append_assoc, List.singleton_append]
      rfl
    rw [henc, unaryDecAux_replicate]
    rw [show (0 : Nat) + n = n from by omega]
    exact congrArg (n :: ·) ih

/-- Claim C8 (modelled from the spec; the Rust session manager source is
not in the repository): starting from an empty cache, a first
`ensureSession` call at `t1` creates a session (`fresh:true`); a second
call within 15 minutes of it returns `fresh:false` with the unchanged
`wrapped_key_b64`; a third call at or after `t1` + 15 minutes returns
`fresh:true` with a different `wrapped_key_b64`.  The last part uses the
spec's wrap round-trip guarantee (`unwrap ∘ wrap = id`, §8), which makes
the wrap injective, and the freshness of the new key bytes (`k3 ≠ k1`). -/
theorem C8_session_freshness (wrapFn : String → List Nat → String)
    (unwrapFn : String → List Nat) (pub : String) (t1 t2 t3 : Nat)
    (k1 k2 k3 : List Nat)
    (hu : ∀ k, unwrapFn (wrapFn pub k) = k)
    (hk : k3 ≠ k1)
    (h2 : t2 < t1 + sessionTtlMs)
    (h3 : t1 + sessionTtlMs ≤ t3) :
    (ensureSession wrapFn pub t1 k1 none).1.fresh = true ∧
    (ensureSession wrapFn pub t2 k2 (ensureSession wrapFn pub t1 k1 none).2).1.fresh
      = false ∧
    (ensureSession wrapFn pub t2 k2 (ensureSession wrapFn pub t1 k1 none).2).1.wrapped_key_b64
      = (ensureSession wrapFn pub t1 k1 none).1.wrapped_key_b64 ∧
    (ensureSession wrapFn pub t3 k3
        (ensureSession wrapFn pub t2 k2 (ensureSession wrapFn pub t1 k1 none).2).2).1.fresh
      = true ∧
    (ensureSession wrapFn pub t3 k3
        (ensureSession wrapFn pub t2 k2
          (ensureSession wrapFn pub t1 k1 none).2).2).1.wrapped_key_b64
      ≠ (ensureSession wrapFn pub t1 k1 none).1.wrapped_key_b64 := by
  have e1 : ensureSession wrapFn pub t1 k1 none
      = (⟨1, "RSA-OAEP-256", "AES-256-GCM", wrapFn pub k1, true, t1⟩,
         some ⟨pub, k1, wrapFn pub k1, t1, t1 + sessionTtlMs⟩) := rfl
  have e2 : ensureSession wrapFn pub t2 k2
        (some ⟨pub, k1, wrapFn pub k1, t1, t1 + sessionTtlMs⟩)
      = (⟨1, "RSA-OAEP-256", "AES-256-GCM", wrapFn pub k1, false, t1⟩,
         some ⟨pub, k1, wrapFn pub k1, t1, t1 + sessionTtlMs⟩) := by
    simp only [ensureSession]
    rw [if_pos ⟨trivial, h2⟩]
  have e3 : ensureSession wrapFn pub t3 k3
        (some ⟨pub, k1, wrapFn pub k1, t1, t1 + sessionTtlMs⟩)
      = (⟨1, "RSA-OAEP-256", "AES-256-GCM", wrapFn pub k3, true, t3⟩,
         some ⟨pub, k3, wrapFn pub k3, t3, t3 + sessionTtlMs⟩) := by
    simp only [ensureSession]
    rw [if_neg]
    rintro ⟨-, hc⟩
    omega
  rw [e1, e2, e3]
  refine ⟨rfl, rfl, rfl, rfl, ?_⟩
  intro he
  apply hk
  have he' : wrapFn pub k3 = wrapFn pub k1 := he
  rw [← hu k3, ← hu k1, he']

theorem C8_witness :
    (ensureSession wrapDemo "PUB" 0 [0] none).1.fresh = true ∧
    (ensureSession wrapDemo "PUB" 1 [5] (ensureSession wrapDemo "PUB" 0 [0] none).2).1.fresh
      = false ∧
    (ensureSession wrapDemo "PUB" 1 [5]
        (ensureSession wrapDemo "PUB" 0 [0] none).2).1.wrapped_key_b64
      = (ensureSession wrapDemo "PUB" 0 [0] none).1.wrapped_key_b64 ∧
    (ensureSession wrapDemo "PUB" 900000 [1]
        (ensureSession wrapDemo "PUB" 1 [5]
          (ensureSession wrapDemo "PUB" 0 [0] none).2).2).1.fresh = true ∧
    (ensureSession wrapDemo "PUB" 900000 [1]
        (ensureSession wrapDemo "PUB" 1 [5]
          (ensureSession wrapDemo "PUB" 0 [0] none).2).2).1.wrapped_key_b64
      ≠ (ensureSession wrapDemo "PUB" 0 [0] none).1.wrapped_key_b64 :=
  C8_session_freshness wrapDemo unwrapDemo "PUB" 0 1 900000 [0] [5] [1]
    (fun k => unaryDec_unaryEnc k) (by decide) (by decide) (by decide)

end WasmDemo
